import Mathlib

/-!
Verification of the `ordcode` binary codec (order-preserving serialization).

The development shallowly embeds `src/primitives.rs`, `src/errors.rs` and the
entry points of `src/lib.rs`.  Machine integers of width `8*n` bits are
modelled as `Nat` (their bit pattern) together with explicit bounds `< 2^(8*n)`;
signed integers are `Int` values in the two's-complement range, converted to
patterns by `toBits`.  Byte buffers are `List Nat` with every element `< 256`.
Fallible operations return `Except Error`.
-/

namespace Ordcode

/-- `params::Endianness` (external configuration, `src/lib.rs` re-exports). -/
inductive Endianness
  | Little
  | Big
  | Native
deriving DecidableEq, Repr

/-- `params::Order` (external configuration). -/
inductive Order
  | Ascending
  | Descending
  | Unordered
deriving DecidableEq, Repr

/-- `params::EncodingParams`: the endianness/order configuration threaded
through every primitive call.  `nativeLittle` records the byte order of the
host, which decides what `to_ne_bytes` / `from_ne_bytes` mean for the
`Endianness.Native` choice. -/
structure EncodingParams where
  endianness : Endianness
  order : Order
  nativeLittle : Bool
deriving DecidableEq, Repr

/-- `errors::Error` (from `src/errors.rs`; the `Serde(String)` payload and the
no-std-only variant are irrelevant here and dropped/kept as bare tags). -/
inductive Error
  | Serde
  | SerializeSequenceMustHaveLength
  | BufferOverflow
  | BufferUnderflow
  | PrematureEndOfInput
  | InvalidByteSequenceEscape
  | DeserializeAnyNotSupported
  | DeserializeIdentifierNotSupported
  | DeserializeIgnoredAny
  | InvalidUtf8Encoding
  | InvalidTagEncoding
  | InvalidVarintEncoding
deriving DecidableEq, Repr

/-- Big-endian bytes of a value occupying `n` bytes (`to_be_bytes`).  The most
significant byte comes first. -/
def beBytes : Nat → Nat → List Nat
  | 0, _ => []
  | n + 1, v => v / 256 ^ n :: beBytes n (v % 256 ^ n)

/-- Little-endian bytes of a value occupying `n` bytes (`to_le_bytes`). -/
def leBytes : Nat → Nat → List Nat
  | 0, _ => []
  | n + 1, v => v % 256 :: leBytes n (v / 256)

/-- Value of a big-endian byte list (`from_be_bytes`). -/
def fromBe : List Nat → Nat
  | [] => 0
  | b :: bs => b * 256 ^ bs.length + fromBe bs

/-- Value of a little-endian byte list (`from_le_bytes`). -/
def fromLe : List Nat → Nat
  | [] => 0
  | b :: bs => b + 256 * fromLe bs

/-- The `to_bytes!` macro of `src/primitives.rs`: bytes of `v` in the
endianness selected by the parameters (`Native` resolves to the host order). -/
def toBytesEnd (p : EncodingParams) (n v : Nat) : List Nat :=
  match p.endianness with
  | .Little => leBytes n v
  | .Big => beBytes n v
  | .Native => if p.nativeLittle then leBytes n v else beBytes n v

/-- The `from_bytes!` macro: value of a byte list in the selected endianness. -/
def fromBytesEnd (p : EncodingParams) (bs : List Nat) : Nat :=
  match p.endianness with
  | .Little => fromLe bs
  | .Big => fromBe bs
  | .Native => if p.nativeLittle then fromLe bs else fromBe bs

/-- Rust `!value` on a `w`-bit unsigned integer whose value is `v < 2^w`. -/
def notBits (w v : Nat) : Nat := 2 ^ w - 1 - v

/-- The `ord_cond!` macro: pick the descending-order branch exactly for
`Order::Descending`; `Ascending` and `Unordered` share the other branch. -/
def ordCond (p : EncodingParams) (desc asc : Nat) : Nat :=
  match p.order with
  | .Ascending | .Unordered => asc
  | .Descending => desc

/-- Body of `serialize_int!`'s unsigned serializer (`serialize_u8` ..
`serialize_u128`): complement the value under descending order, then write its
bytes in the configured endianness.  `n` is the byte width of the type. -/
def serialize_uint (p : EncodingParams) (n v : Nat) : List Nat :=
  toBytesEnd p n (ordCond p (notBits (8 * n) v) v)

/-- Body of `serialize_int!`'s unsigned deserializer (`deserialize_u8` ..).
The `ReadBytes::read` capability is modelled from the spec: reading `n` bytes
from the head of the input fails with `PrematureEndOfInput` when fewer remain
(spec §4.1/§4.2; `buf.rs` itself is out of scope here). -/
def deserialize_uint (p : EncodingParams) (n : Nat) (bs : List Nat) :
    Except Error (Nat × List Nat) :=
  if n ≤ bs.length then
    let rv := fromBytesEnd p (bs.take n)
    .ok (ordCond p (notBits (8 * n) rv) rv, bs.drop n)
  else .error .PrematureEndOfInput

/-- Two's-complement bit pattern of a signed value of width `w` bits
(`value as uN` / reinterpretation). -/
def toBits (w : Nat) (v : Int) : Nat := (v % (2 ^ w : Int)).toNat

/-- Signed value of a `w`-bit two's-complement pattern (`value as iN`). -/
def ofBits (w : Nat) (u : Nat) : Int :=
  if u < 2 ^ (w - 1) then (u : Int) else (u : Int) - 2 ^ w

/-- Body of `serialize_int!`'s signed serializer: `(value ^ iN::MIN) as uN`,
then the unsigned path.  `iN::MIN` has bit pattern `2^(8n-1)`, and XOR of
signed values is XOR of their patterns. -/
def serialize_sint (p : EncodingParams) (n : Nat) (v : Int) : List Nat :=
  serialize_uint p n (toBits (8 * n) v ^^^ 2 ^ (8 * n - 1))

/-- Body of `serialize_int!`'s signed deserializer:
`(u as iN) ^ iN::MIN`, i.e. XOR the pattern with `2^(8n-1)` and reinterpret
as signed. -/
def deserialize_sint (p : EncodingParams) (n : Nat) (bs : List Nat) :
    Except Error (Int × List Nat) :=
  (deserialize_uint p n bs).map fun ur =>
    (ofBits (8 * n) (ur.1 ^^^ 2 ^ (8 * n - 1)), ur.2)

/-- `serialize_bool`: `1`/`0` through the `u8` path. -/
def serialize_bool (p : EncodingParams) (b : Bool) : List Nat :=
  serialize_uint p 1 (if b then 1 else 0)

/-- `deserialize_bool`: `u8` path, then `v != 0`. -/
def deserialize_bool (p : EncodingParams) (bs : List Nat) :
    Except Error (Bool × List Nat) :=
  (deserialize_uint p 1 bs).map fun ur => (ur.1 != 0, ur.2)

/-- `core::char::from_u32`: `None` for surrogates (`0xD800..=0xDFFF`) and
values above `char::MAX = 0x10FFFF`, otherwise the scalar itself.  A Rust
`char` is modelled as its Unicode scalar value. -/
def char_from_u32 (u : Nat) : Option Nat :=
  if (0xD800 ≤ u ∧ u < 0xE000) ∨ 0x10FFFF < u then none else some u

/-- `serialize_char`: the scalar value through the `u32` path. -/
def serialize_char (p : EncodingParams) (c : Nat) : List Nat :=
  serialize_uint p 4 c

/-- `deserialize_char`: `u32` path, then `char::from_u32` with
`InvalidUtf8Encoding` on failure. -/
def deserialize_char (p : EncodingParams) (bs : List Nat) :
    Except Error (Nat × List Nat) := do
  let ur ← deserialize_uint p 4 bs
  match char_from_u32 ur.1 with
  | some c => .ok (c, ur.2)
  | none => .error .InvalidUtf8Encoding

/-- Rust `t >> MSBOFFS` (arithmetic shift right by `w-1`) on the
two's-complement pattern `t` of an `iN`: `0` when the sign bit is clear,
all-ones when it is set. -/
def sarMSB (w t : Nat) : Nat := if t < 2 ^ (w - 1) then 0 else 2 ^ w - 1

/-- The big-endian branch of `serialize_float!`:
`t ^ ((t >> MSBOFFS) | iN::MIN)` on the pattern (`iN::MIN` has pattern
`2^(w-1)`). -/
def floatXf (w t : Nat) : Nat :=
  t ^^^ (sarMSB w t ||| 2 ^ (w - 1))

/-- Body of `serialize_float!`'s serializer (`serialize_f32`/`serialize_f64`):
`t` is the float's bit pattern (`to_bits`), transformed only under
`Endianness::Big`, then written through the common ordered path.  `n` is the
byte width. -/
def serialize_float (p : EncodingParams) (n t : Nat) : List Nat :=
  let ov := if p.endianness = .Big then floatXf (8 * n) t else t
  toBytesEnd p n (ordCond p (notBits (8 * n) ov) ov)

/-- Body of `serialize_float!`'s deserializer: undo the big-endian transform
(`t = ((val ^ MIN) >> MSBOFFS) | MIN; from_bits(val ^ t)`), returning the
float's bit pattern. -/
def deserialize_float (p : EncodingParams) (n : Nat) (bs : List Nat) :
    Except Error (Nat × List Nat) :=
  (deserialize_uint p n bs).map fun ur =>
    (if p.endianness = .Big then
       let t := sarMSB (8 * n) (ur.1 ^^^ 2 ^ (8 * n - 1)) ||| 2 ^ (8 * n - 1)
       ur.1 ^^^ t
     else ur.1, ur.2)

/-- Bitwise inversion of one byte (`!b` on `u8`, for `b < 256`). -/
def invByte (b : Nat) : Nat := 255 - b

/-- `invert_buffer`: bitwise-invert every byte of a buffer. -/
def invert_buffer (buf : List Nat) : List Nat := buf.map invByte

/-- `write_bytes`: write the bytes of `v`, each inverted under
`Order::Descending`, unchanged otherwise. -/
def write_bytes (p : EncodingParams) (v : List Nat) : List Nat :=
  match p.order with
  | .Descending => v.map invByte
  | .Ascending | .Unordered => v

/-- Lexicographic strict comparison of byte lists (unsigned byte compare, as
a key-value store compares keys). -/
def lexLtB : List Nat → List Nat → Bool
  | [], [] => false
  | [], _ :: _ => true
  | _ :: _, [] => false
  | a :: as_, b :: bs => if a < b then true else if a = b then lexLtB as_ bs else false

/-- The big-endian ascending configuration (`params::AscendingOrder`). -/
def ascBig : EncodingParams := ⟨.Big, .Ascending, true⟩

/-- The big-endian descending configuration. -/
def descBig : EncodingParams := ⟨.Big, .Descending, true⟩

/-- An IEEE-754 binary format: `ebits` exponent bits, `mbits` mantissa bits,
one sign bit.  `f32` is `⟨8, 23⟩`, `f64` is `⟨11, 52⟩`. -/
structure FloatFmt where
  ebits : Nat
  mbits : Nat
deriving DecidableEq, Repr

namespace FloatFmt

/-- Total bit width. -/
def w (F : FloatFmt) : Nat := F.ebits + F.mbits + 1

/-- Exponent bias (`2^(ebits-1) - 1`). -/
def bias (F : FloatFmt) : Int := 2 ^ (F.ebits - 1) - 1

/-- Sign bit of a pattern. -/
def sign (F : FloatFmt) (u : Nat) : Nat := u / 2 ^ (F.ebits + F.mbits)

/-- Exponent field of a pattern. -/
def expf (F : FloatFmt) (u : Nat) : Nat := u / 2 ^ F.mbits % 2 ^ F.ebits

/-- Mantissa field of a pattern. -/
def mant (F : FloatFmt) (u : Nat) : Nat := u % 2 ^ F.mbits

/-- NaN: exponent field all ones with a nonzero mantissa. -/
def isNaN (F : FloatFmt) (u : Nat) : Prop :=
  F.expf u = 2 ^ F.ebits - 1 ∧ F.mant u ≠ 0

/-- Magnitude of a pattern, as an exact rational, extended so that the
infinities (exponent all ones, mantissa zero) get the value `2^(2^ebits)`,
which is strictly larger than every finite magnitude of the format.
Subnormals (`expf = 0`) use exponent `1 - bias` without the implicit leading
bit; normal numbers use `expf - bias` with it. -/
def magE (F : FloatFmt) (u : Nat) : ℚ :=
  if F.expf u = 2 ^ F.ebits - 1 then
    (2 : ℚ) ^ ((2 : ℤ) ^ F.ebits)
  else if F.expf u = 0 then
    (F.mant u : ℚ) * (2 : ℚ) ^ (1 - F.bias - F.mbits)
  else
    ((2 ^ F.mbits + F.mant u : Nat) : ℚ) *
      (2 : ℚ) ^ ((F.expf u : ℤ) - F.bias - F.mbits)

/-- Numeric value of a non-NaN pattern: signed magnitude (infinities mapped
to `±2^(2^ebits)`, beyond every finite value, so that numeric comparison of
any two non-NaN patterns is faithful to IEEE-754). -/
def valE (F : FloatFmt) (u : Nat) : ℚ :=
  if F.sign u = 0 then F.magE u else -F.magE u

end FloatFmt

/-- The `f32` format. -/
def f32fmt : FloatFmt := ⟨8, 23⟩

/-- The `f64` format. -/
def f64fmt : FloatFmt := ⟨11, 52⟩

/-- Modelled from the spec: the varint encoder of the `varint` module (its
source is not under `src/`).  Spec §4.3 describes a continuation-bit scheme —
each byte carries payload bits plus a "more bytes follow" flag; the concrete
layout (low bit set exactly on the final byte, 7 payload bits per byte) is
pinned by the byte-level examples in `src/lib.rs`, where `varint(3) = 0x07`. -/
def varintEnc (v : Nat) : List Nat :=
  if h : v < 128 then [2 * v + 1]
  else 2 * (v % 128) :: varintEnc (v / 128)
decreasing_by
  exact Nat.div_lt_self (by omega) (by omega)

/-- Modelled from the spec: varint byte count as a direct function of
magnitude (spec §4.6), mirroring `varintEnc`. -/
def varintSize (v : Nat) : Nat :=
  if h : v < 128 then 1 else 1 + varintSize (v / 128)
decreasing_by
  exact Nat.div_lt_self (by omega) (by omega)

/-- Modelled from the spec: the universe of composite values the structured
serializer traverses (spec §4.4) — scalars, strings/byte strings (content as
raw bytes), options, sequences, fixed tuples/structs, and enum variants.  The
serde `Serialize` protocol itself is external; this is its shape. -/
inductive Value where
  | uintV (n : Nat) (v : Nat)
  | sintV (n : Nat) (v : Int)
  | boolV (b : Bool)
  | charV (c : Nat)
  | floatV (n : Nat) (t : Nat)
  | strV (content : List Nat)
  | bytesV (content : List Nat)
  | optV (o : Option Value)
  | seqV (elems : List Value)
  | tupleV (fields : List Value)
  | enumV (tag : Nat) (payload : Value)
deriving Repr

/-- Modelled from the spec: the structured serializer (`ord_ser.rs`, not under
`src/`), written as a state transformer over the dual-cursor buffer of §4.2.
The state is the pair (bytes written through the head so far, tail region
lowest-address-first).  A head write appends; a tail write places its bytes
immediately below all earlier tail writes, so it prepends to the tail region.
Dispatch per shape follows the §4.4 table: scalars through the primitive
codec, string/byte content through the head with `varint(byte length)` to the
tail, a one-byte option presence flag, `varint(element count)` to the tail for
sequences, fields in order for tuples/structs, `varint(discriminant)` then the
payload for enum variants. -/
def serStep (p : EncodingParams) : Value → List Nat × List Nat → List Nat × List Nat
  | .uintV n v, st => (st.1 ++ serialize_uint p n v, st.2)
  | .sintV n v, st => (st.1 ++ serialize_sint p n v, st.2)
  | .boolV b, st => (st.1 ++ serialize_bool p b, st.2)
  | .charV c, st => (st.1 ++ serialize_char p c, st.2)
  | .floatV n t, st => (st.1 ++ serialize_float p n t, st.2)
  | .strV c, st => (st.1 ++ write_bytes p c, write_bytes p (varintEnc c.length) ++ st.2)
  | .bytesV c, st => (st.1 ++ write_bytes p c, write_bytes p (varintEnc c.length) ++ st.2)
  | .optV none, st => (st.1 ++ serialize_uint p 1 0, st.2)
  | .optV (some v) , st => serStep p v (st.1 ++ serialize_uint p 1 1, st.2)
  | .seqV es, st => serList p es (st.1, write_bytes p (varintEnc es.length) ++ st.2)
  | .tupleV fs, st => serList p fs st
  | .enumV tag pl, st => serStep p pl (st.1 ++ write_bytes p (varintEnc tag), st.2)
where
  /-- Serialize a list of values left to right. -/
  serList (p : EncodingParams) : List Value → List Nat × List Nat → List Nat × List Nat
  | [], st => st
  | v :: vs, st => serList p vs (serStep p v st)

/-- Modelled from the spec: the size calculator (`size_calc.rs`, not under
`src/`), spec §4.6 — same traversal shape as the serializer, producing a byte
count and nothing else. -/
def calcSize : Value → Nat
  | .uintV n _ => n
  | .sintV n _ => n
  | .boolV _ => 1
  | .charV _ => 4
  | .floatV n _ => n
  | .strV c => c.length + varintSize c.length
  | .bytesV c => c.length + varintSize c.length
  | .optV none => 1
  | .optV (some v) => 1 + calcSize v
  | .seqV es => varintSize es.length + calcList es
  | .tupleV fs => calcList fs
  | .enumV tag pl => varintSize tag + calcSize pl
where
  /-- Total size of a list of values. -/
  calcList : List Value → Nat
  | [] => 0
  | v :: vs => calcSize v + calcList vs

/-- Model of `ser_to_vec_ordered` (`src/lib.rs`): allocate exactly
`calc_size` bytes, serialize with `params::AscendingOrder` into the
dual-cursor buffer, run the `is_complete` check (head cursor meets tail
cursor, i.e. head bytes plus tail bytes fill the allocation exactly), then
bitwise-invert the whole buffer for `Order::Descending`.  The
`DeBytesWriter` capability is modelled from the spec (§4.2; `buf.rs` is not
under `src/`). -/
def serToVecOrdered (v : Value) (order : Order) : Except Error (List Nat) :=
  let size := calcSize v
  let ht := serStep ascBig v ([], [])
  if ht.1.length + ht.2.length = size then
    .ok (if order = .Descending then invert_buffer (ht.1 ++ ht.2) else ht.1 ++ ht.2)
  else if size < ht.1.length + ht.2.length then .error .BufferOverflow
  else .error .BufferUnderflow

/-- Model of `ser_to_buf_ordered` (`src/lib.rs`): serialize with
`params::AscendingOrder` into the caller's buffer (head region at the front,
tail region at the back, untouched middle in between), `finalize()` by moving
the tail region down to the head cursor (as `DeBytesWriter::finalize` is
described by the `src/lib.rs` doctest, which succeeds on an oversized buffer
and returns the serialized length; modelled from the spec for the rest of the
missing `buf.rs`), then — exactly as `src/lib.rs` lines 170-172 do — invert
the caller's ENTIRE buffer when the order is `Order::Descending`.
`serHead`/`serTail`/`finalizedBuf` below are its pieces; `ser_to_buf_ordered`
assembles them.

Head-region bytes the ascending serializer produces for `v`. -/
def serHead (v : Value) : List Nat := (serStep ascBig v ([], [])).1

/-- Tail-region bytes the ascending serializer produces for `v`. -/
def serTail (v : Value) : List Nat := (serStep ascBig v ([], [])).2

/-- The caller's buffer after the serializer's writes (head region at the
front, tail region at the back, untouched middle in between) and after
`finalize()` moved the tail region down to the head cursor. -/
def finalizedBuf (v : Value) (buf : List Nat) : List Nat :=
  let mid := (buf.drop (serHead v).length).take
    (buf.length - (serTail v).length - (serHead v).length)
  let postWrite := serHead v ++ mid ++ serTail v
  serHead v ++ serTail v ++ postWrite.drop ((serHead v).length + (serTail v).length)

def ser_to_buf_ordered (v : Value) (buf : List Nat) (order : Order) :
    Except Error (Nat × List Nat) :=
  if (serHead v).length + (serTail v).length ≤ buf.length then
    .ok ((serHead v).length + (serTail v).length,
         if order = .Descending then invert_buffer (finalizedBuf v buf)
         else finalizedBuf v buf)
  else .error .BufferOverflow

example : serialize_uint ascBig 2 1 = [0, 1] := by decide
example : serialize_uint descBig 2 1 = [255, 254] := by decide
example : deserialize_uint ascBig 2 [0, 1, 9] = .ok (1, [9]) := by rfl
example : serialize_sint ascBig 1 (-1) = [127] := by decide
example : serialize_float ascBig 4 0x3F800000 = [0xBF, 0x80, 0, 0] := by decide
example : deserialize_float ascBig 4 [0xBF, 0x80, 0, 0] = .ok (0x3F800000, []) := by rfl
example : varintEnc 3 = [7] := by simp [varintEnc]
example : serToVecOrdered (.tupleV [.uintV 2 1, .strV [97, 98, 99]]) .Ascending
    = .ok [0, 1, 97, 98, 99, 7] := by
  simp [serToVecOrdered, serStep, serStep.serList, calcSize, calcSize.calcList,
    varintEnc, varintSize, serialize_uint, write_bytes, toBytesEnd, beBytes,
    ordCond, notBits, ascBig, invert_buffer, invByte]
example : serToVecOrdered (.tupleV [.uintV 2 1, .strV [97, 98, 99]]) .Descending
    = .ok [255, 254, 158, 157, 156, 248] := by
  simp [serToVecOrdered, serStep, serStep.serList, calcSize, calcSize.calcList,
    varintEnc, varintSize, serialize_uint, write_bytes, toBytesEnd, beBytes,
    ordCond, notBits, ascBig, invert_buffer, invByte]
example : ser_to_buf_ordered (.tupleV [.uintV 2 1, .strV [97, 98, 99]]) [0,0,0,0,0,0,0,0] .Descending
    = .ok (6, [255, 254, 158, 157, 156, 248, 255, 248]) := by
  simp [ser_to_buf_ordered, finalizedBuf, serHead, serTail, serStep, serStep.serList,
    varintEnc, serialize_uint, write_bytes, toBytesEnd, beBytes,
    ordCond, notBits, ascBig, invert_buffer, invByte]

/-! ### Byte-list lemmas -/

theorem beBytes_length (n v : Nat) : (beBytes n v).length = n := by
  induction n generalizing v with
  | zero => simp [beBytes]
  | succ n ih => simp [beBytes, ih]

theorem leBytes_length (n v : Nat) : (leBytes n v).length = n := by
  induction n generalizing v with
  | zero => simp [leBytes]
  | succ n ih => simp [leBytes, ih]

theorem fromBe_beBytes (n v : Nat) (h : v < 256 ^ n) : fromBe (beBytes n v) = v := by
  induction n generalizing v with
  | zero => simp [beBytes, fromBe]; omega
  | succ n ih =>
    have hpos : 0 < 256 ^ n := by positivity
    simp only [beBytes, fromBe, beBytes_length, ih (v % 256 ^ n) (Nat.mod_lt _ hpos)]
    exact Nat.div_add_mod' v (256 ^ n)

theorem fromLe_leBytes (n v : Nat) (h : v < 256 ^ n) : fromLe (leBytes n v) = v := by
  induction n generalizing v with
  | zero => simp [leBytes, fromLe]; omega
  | succ n ih =>
    have hdiv : v / 256 < 256 ^ n := by
      rw [Nat.div_lt_iff_lt_mul (by omega)]
      calc v < 256 ^ (n + 1) := h
        _ = 256 ^ n * 256 := by ring
    simp only [leBytes, fromLe, ih (v / 256) hdiv]
    have := Nat.div_add_mod v 256
    omega

theorem beBytes_not (n v : Nat) (h : v < 256 ^ n) :
    beBytes n (256 ^ n - 1 - v) = (beBytes n v).map invByte := by
  induction n generalizing v with
  | zero => simp [beBytes]
  | succ n ih =>
    have hpos : 0 < 256 ^ n := by positivity
    have hr : v % 256 ^ n < 256 ^ n := Nat.mod_lt _ hpos
    have hq : v / 256 ^ n < 256 := by
      rw [Nat.div_lt_iff_lt_mul hpos]
      calc v < 256 ^ (n + 1) := h
        _ = 256 * 256 ^ n := by ring
    have hv : 256 ^ n * (v / 256 ^ n) + v % 256 ^ n = v := Nat.div_add_mod v (256 ^ n)
    have key : 256 ^ (n + 1) - 1 - v
        = 256 ^ n * (255 - v / 256 ^ n) + (256 ^ n - 1 - v % 256 ^ n) := by
      have hBC : 256 ^ n * (v / 256 ^ n) + 256 ^ n * (255 - v / 256 ^ n) = 256 ^ n * 255 := by
        rw [← Nat.mul_add]
        congr 1
        omega
      have hp : 256 ^ (n + 1) = 256 * 256 ^ n := by ring
      omega
    have e1 : (256 ^ n * (255 - v / 256 ^ n) + (256 ^ n - 1 - v % 256 ^ n)) / 256 ^ n
        = 255 - v / 256 ^ n := by
      rw [Nat.mul_add_div hpos,
        Nat.div_eq_of_lt (show 256 ^ n - 1 - v % 256 ^ n < 256 ^ n by omega), Nat.add_zero]
    have e2 : (256 ^ n * (255 - v / 256 ^ n) + (256 ^ n - 1 - v % 256 ^ n)) % 256 ^ n
        = 256 ^ n - 1 - v % 256 ^ n := by
      rw [Nat.mul_add_mod,
        Nat.mod_eq_of_lt (show 256 ^ n - 1 - v % 256 ^ n < 256 ^ n by omega)]
    simp only [beBytes, key, e1, e2, ih _ hr]
    simp [invByte]

theorem leBytes_not (n v : Nat) (h : v < 256 ^ n) :
    leBytes n (256 ^ n - 1 - v) = (leBytes n v).map invByte := by
  induction n generalizing v with
  | zero => simp [leBytes]
  | succ n ih =>
    have hpos : 0 < 256 ^ n := by positivity
    have hr : v % 256 < 256 := Nat.mod_lt _ (by omega)
    have hdiv : v / 256 < 256 ^ n := by
      rw [Nat.div_lt_iff_lt_mul (by omega)]
      calc v < 256 ^ (n + 1) := h
        _ = 256 ^ n * 256 := by ring
    have hv : 256 * (v / 256) + v % 256 = v := Nat.div_add_mod v 256
    have key : 256 ^ (n + 1) - 1 - v
        = 256 * (256 ^ n - 1 - v / 256) + (255 - v % 256) := by
      have hp : 256 ^ (n + 1) = 256 * 256 ^ n := by ring
      omega
    have e1 : (256 * (256 ^ n - 1 - v / 256) + (255 - v % 256)) % 256 = 255 - v % 256 := by
      rw [Nat.mul_add_mod, Nat.mod_eq_of_lt (show 255 - v % 256 < 256 by omega)]
    have e2 : (256 * (256 ^ n - 1 - v / 256) + (255 - v % 256)) / 256
        = 256 ^ n - 1 - v / 256 := by
      rw [Nat.mul_add_div (by omega),
        Nat.div_eq_of_lt (show 255 - v % 256 < 256 by omega), Nat.add_zero]
    simp only [leBytes, key, e1, e2, ih _ hdiv]
    simp [invByte]

theorem lexLtB_beBytes (n a b : Nat) (ha : a < 256 ^ n) (hb : b < 256 ^ n) :
    lexLtB (beBytes n a) (beBytes n b) = decide (a < b) := by
  induction n generalizing a b with
  | zero =>
    have : a = 0 := by omega
    have : b = 0 := by omega
    subst_vars
    simp [beBytes, lexLtB]
  | succ n ih =>
    have hpos : 0 < 256 ^ n := by positivity
    have hva : 256 ^ n * (a / 256 ^ n) + a % 256 ^ n = a := Nat.div_add_mod a (256 ^ n)
    have hvb : 256 ^ n * (b / 256 ^ n) + b % 256 ^ n = b := Nat.div_add_mod b (256 ^ n)
    simp only [beBytes, lexLtB]
    by_cases h1 : a / 256 ^ n < b / 256 ^ n
    · simp [h1, Nat.lt_of_div_lt_div h1]
    · by_cases h2 : a / 256 ^ n = b / 256 ^ n
      · have hvb' : 256 ^ n * (a / 256 ^ n) + b % 256 ^ n = b := by rw [h2]; exact hvb
        have hiff : a < b ↔ a % 256 ^ n < b % 256 ^ n := by omega
        rw [if_neg h1, if_pos h2, ih _ _ (Nat.mod_lt _ hpos) (Nat.mod_lt _ hpos)]
        simp [hiff]
      · have hba : b < a :=
          Nat.lt_of_div_lt_div (show b / 256 ^ n < a / 256 ^ n by omega)
        have hnab : ¬ a < b := by omega
        simp [h1, h2, hnab]

/-! ### `Nat.xor` with powers of two -/

theorem xor_two_pow_of_lt {n v : Nat} (h : v < 2 ^ n) : v ^^^ 2 ^ n = v + 2 ^ n := by
  apply Nat.eq_of_testBit_eq
  intro i
  rcases lt_trichotomy i n with hi | rfl | hi
  · rw [Nat.testBit_xor, Nat.testBit_two_pow_of_ne (by omega), Nat.add_comm,
      Nat.testBit_two_pow_add_gt hi]
    simp
  · rw [Nat.add_comm, Nat.testBit_two_pow_add_eq, Nat.testBit_xor,
      Nat.testBit_two_pow_self, Nat.testBit_lt_two_pow h]
    simp
  · have hle : 2 ^ (n + 1) ≤ 2 ^ i := Nat.pow_le_pow_right (by omega) (by omega)
    have h2 : 2 ^ (n + 1) = 2 * 2 ^ n := by ring
    rw [Nat.testBit_xor, Nat.testBit_two_pow_of_ne (by omega),
      Nat.testBit_lt_two_pow (show v < 2 ^ i by omega),
      Nat.testBit_lt_two_pow (show v + 2 ^ n < 2 ^ i by omega)]
    simp

theorem xor_two_pow_of_ge {n u : Nat} (h1 : 2 ^ n ≤ u) (h2 : u < 2 ^ n + 2 ^ n) :
    u ^^^ 2 ^ n = u - 2 ^ n := by
  have key : (u - 2 ^ n) ^^^ 2 ^ n = u := by
    rw [xor_two_pow_of_lt (by omega)]
    omega
  calc u ^^^ 2 ^ n = ((u - 2 ^ n) ^^^ 2 ^ n) ^^^ 2 ^ n := by rw [key]
    _ = (u - 2 ^ n) ^^^ (2 ^ n ^^^ 2 ^ n) := Nat.xor_assoc _ _ _
    _ = u - 2 ^ n := by simp

theorem xor_two_pow_sub_one {n v : Nat} (h : v < 2 ^ n) :
    v ^^^ (2 ^ n - 1) = 2 ^ n - 1 - v := by
  apply Nat.eq_of_testBit_eq
  intro i
  rw [Nat.testBit_xor, Nat.testBit_two_pow_sub_one,
    show 2 ^ n - 1 - v = 2 ^ n - (v + 1) by omega, Nat.testBit_two_pow_sub_succ h]
  by_cases hi : i < n
  · simp [hi]
  · have : v < 2 ^ i := lt_of_lt_of_le h (Nat.pow_le_pow_right (by omega) (by omega))
    simp [hi, Nat.testBit_lt_two_pow this]

theorem lor_ones {w : Nat} (hw : 1 ≤ w) : (2 ^ w - 1) ||| 2 ^ (w - 1) = 2 ^ w - 1 := by
  apply Nat.eq_of_testBit_eq
  intro i
  rw [Nat.testBit_or, Nat.testBit_two_pow_sub_one, Nat.testBit_two_pow]
  by_cases hi : i < w
  · simp [hi]
  · simp [hi, show ¬ (w - 1 = i) by omega]

/-! ### Endianness round trips -/

theorem pow256 (n : Nat) : (2 : Nat) ^ (8 * n) = 256 ^ n := by
  rw [pow_mul]
  norm_num

theorem toBytesEnd_length (p : EncodingParams) (n v : Nat) :
    (toBytesEnd p n v).length = n := by
  unfold toBytesEnd
  cases p.endianness <;> simp [beBytes_length, leBytes_length]
  split <;> simp [beBytes_length, leBytes_length]

theorem fromBytesEnd_toBytesEnd (p : EncodingParams) {n v : Nat} (h : v < 256 ^ n) :
    fromBytesEnd p (toBytesEnd p n v) = v := by
  unfold toBytesEnd fromBytesEnd
  cases p.endianness with
  | Little => exact fromLe_leBytes n v h
  | Big => exact fromBe_beBytes n v h
  | Native =>
    by_cases hnl : p.nativeLittle
    · simp only [if_pos hnl]
      exact fromLe_leBytes n v h
    · simp only [if_neg hnl]
      exact fromBe_beBytes n v h

theorem toBytesEnd_not (p : EncodingParams) {n v : Nat} (h : v < 256 ^ n) :
    toBytesEnd p n (256 ^ n - 1 - v) = (toBytesEnd p n v).map invByte := by
  unfold toBytesEnd
  cases p.endianness with
  | Little => exact leBytes_not n v h
  | Big => exact beBytes_not n v h
  | Native =>
    by_cases hnl : p.nativeLittle
    · simp only [if_pos hnl]
      exact leBytes_not n v h
    · simp only [if_neg hnl]
      exact beBytes_not n v h

theorem notBits_lt {w v : Nat} : notBits w v < 2 ^ w := by
  have : 0 < 2 ^ w := by positivity
  unfold notBits
  omega

theorem notBits_notBits {w v : Nat} (h : v < 2 ^ w) : notBits w (notBits w v) = v := by
  unfold notBits
  omega

theorem ordCond_lt {p : EncodingParams} {w : Nat} {v : Nat} (h : v < 2 ^ w) :
    ordCond p (notBits w v) v < 2 ^ w := by
  unfold ordCond
  rcases p.order <;> simp [notBits_lt, h]

/-! ### Primitive round trips -/

theorem serialize_uint_length (p : EncodingParams) (n v : Nat) :
    (serialize_uint p n v).length = n := toBytesEnd_length p n _

theorem deserialize_serialize_uint (p : EncodingParams) (n v : Nat) (rest : List Nat)
    (h : v < 2 ^ (8 * n)) :
    deserialize_uint p n (serialize_uint p n v ++ rest) = .ok (v, rest) := by
  have h' : v < 256 ^ n := by rw [← pow256]; exact h
  have hlen : (serialize_uint p n v).length = n := serialize_uint_length p n v
  have hx : ordCond p (notBits (8 * n) v) v < 256 ^ n := by
    rw [← pow256]; exact ordCond_lt h
  unfold deserialize_uint
  rw [if_pos (by rw [List.length_append, hlen]; omega),
    List.take_left' hlen, List.drop_left' hlen,
    show serialize_uint p n v = toBytesEnd p n (ordCond p (notBits (8 * n) v) v) from rfl,
    fromBytesEnd_toBytesEnd p hx]
  rcases hor : p.order <;> simp [ordCond, hor, notBits_notBits h]

theorem toBits_lt (w : Nat) (v : Int) : toBits w v < 2 ^ w := by
  unfold toBits
  have h2 : (0 : ℤ) < 2 ^ w := by positivity
  have h3 := Int.emod_nonneg v (ne_of_gt h2)
  have h4 := Int.emod_lt_of_pos v h2
  have h5 : ((2 : Nat) ^ w : ℤ) = (2 : ℤ) ^ w := by push_cast; ring
  omega

theorem toBits_eq {w : Nat} {v : Int} (hlo : -(2 ^ (w - 1)) ≤ v) (hhi : v < 2 ^ (w - 1))
    (hw : 1 ≤ w) : (toBits w v : ℤ) = if 0 ≤ v then v else v + 2 ^ w := by
  have hsplit : (2 : ℤ) ^ w = 2 ^ (w - 1) * 2 := by
    rw [← pow_succ]
    congr 1
    omega
  unfold toBits
  rcases le_or_lt 0 v with h0 | h0
  · rw [Int.emod_eq_of_lt h0 (by omega), if_pos h0, Int.toNat_of_nonneg h0]
  · have h1 : (v + 2 ^ w * 1) % (2 : ℤ) ^ w = v % 2 ^ w :=
      Int.add_mul_emod_self_left v (2 ^ w) 1
    rw [mul_one] at h1
    rw [← h1, Int.emod_eq_of_lt (by omega) (by omega), if_neg (by omega),
      Int.toNat_of_nonneg (by omega)]

theorem ofBits_toBits {w : Nat} (hw : 1 ≤ w) {v : Int}
    (hlo : -(2 ^ (w - 1)) ≤ v) (hhi : v < 2 ^ (w - 1)) :
    ofBits w (toBits w v) = v := by
  have hb := toBits_eq hlo hhi hw
  have hsplit : (2 : ℤ) ^ w = 2 ^ (w - 1) * 2 := by
    rw [← pow_succ]
    congr 1
    omega
  have hc : ((2 : Nat) ^ (w - 1) : ℤ) = (2 : ℤ) ^ (w - 1) := by push_cast; ring
  have hcw : ((2 : Nat) ^ w : ℤ) = (2 : ℤ) ^ w := by push_cast; ring
  have hb' : (toBits w v : ℤ) = v ∨ ((toBits w v : ℤ) = v + 2 ^ w ∧ v < 0) := by
    rcases le_or_lt 0 v with h0 | h0
    · left
      rwa [if_pos h0] at hb
    · right
      rw [if_neg (by omega)] at hb
      exact ⟨hb, h0⟩
  unfold ofBits
  split <;> rename_i hsp
  · rcases hb' with h | ⟨h, hneg⟩
    · omega
    · exfalso
      omega
  · rcases hb' with h | ⟨h, hneg⟩
    · exfalso
      omega
    · omega

theorem deserialize_serialize_sint (p : EncodingParams) (n : Nat) (v : Int) (rest : List Nat)
    (hn : 1 ≤ n) (hlo : -(2 ^ (8 * n - 1)) ≤ v) (hhi : v < 2 ^ (8 * n - 1)) :
    deserialize_sint p n (serialize_sint p n v ++ rest) = .ok (v, rest) := by
  have hxlt : toBits (8 * n) v ^^^ 2 ^ (8 * n - 1) < 2 ^ (8 * n) :=
    Nat.xor_lt_two_pow (toBits_lt _ _)
      (Nat.pow_lt_pow_right (by omega) (by omega))
  unfold serialize_sint deserialize_sint
  rw [deserialize_serialize_uint p n _ rest hxlt]
  simp only [Except.map]
  rw [Nat.xor_assoc, Nat.xor_self, Nat.xor_zero,
    ofBits_toBits (by omega) hlo hhi]

theorem deserialize_serialize_bool (p : EncodingParams) (b : Bool) (rest : List Nat) :
    deserialize_bool p (serialize_bool p b ++ rest) = .ok (b, rest) := by
  unfold serialize_bool deserialize_bool
  rw [deserialize_serialize_uint p 1 _ rest (by cases b <;> norm_num)]
  cases b <;> rfl

theorem deserialize_serialize_char (p : EncodingParams) (c : Nat) (rest : List Nat)
    (hval : ¬ ((0xD800 ≤ c ∧ c < 0xE000) ∨ 0x10FFFF < c)) :
    deserialize_char p (serialize_char p c ++ rest) = .ok (c, rest) := by
  have hc : c < 2 ^ (8 * 4) := by norm_num; omega
  unfold serialize_char deserialize_char
  rw [deserialize_serialize_uint p 4 c rest hc]
  simp only [bind, Except.bind, char_from_u32, if_neg hval]

theorem two_pow_split {w : Nat} (hw : 1 ≤ w) : 2 ^ w = 2 ^ (w - 1) + 2 ^ (w - 1) := by
  have h : w - 1 + 1 = w := by omega
  calc 2 ^ w = 2 ^ (w - 1 + 1) := by rw [h]
    _ = 2 ^ (w - 1) + 2 ^ (w - 1) := by rw [pow_succ]; ring

theorem floatXf_eq {w t : Nat} (hw : 1 ≤ w) (ht : t < 2 ^ w) :
    floatXf w t = if t < 2 ^ (w - 1) then t + 2 ^ (w - 1) else 2 ^ w - 1 - t := by
  unfold floatXf sarMSB
  by_cases hlt : t < 2 ^ (w - 1)
  · rw [if_pos hlt, if_pos hlt, Nat.zero_or]
    exact xor_two_pow_of_lt hlt
  · rw [if_neg hlt, if_neg hlt, lor_ones hw]
    exact xor_two_pow_sub_one ht

theorem floatXf_lt {w t : Nat} (hw : 1 ≤ w) (ht : t < 2 ^ w) : floatXf w t < 2 ^ w := by
  have hs := two_pow_split hw
  rw [floatXf_eq hw ht]
  split <;> omega

theorem deserialize_serialize_float (p : EncodingParams) (n t : Nat) (rest : List Nat)
    (hn : 1 ≤ n) (ht : t < 2 ^ (8 * n)) :
    deserialize_float p n (serialize_float p n t ++ rest) = .ok (t, rest) := by
  have hw : 1 ≤ 8 * n := by omega
  have hs := two_pow_split hw
  unfold serialize_float deserialize_float
  by_cases hbig : p.endianness = Endianness.Big
  · rw [if_pos hbig,
      show toBytesEnd p n (ordCond p (notBits (8 * n) (floatXf (8 * n) t)) (floatXf (8 * n) t))
        = serialize_uint p n (floatXf (8 * n) t) from rfl,
      deserialize_serialize_uint p n _ rest (floatXf_lt hw ht)]
    simp only [Except.map, if_pos hbig]
    by_cases hlt : t < 2 ^ (8 * n - 1)
    · have hxf : floatXf (8 * n) t = t + 2 ^ (8 * n - 1) := by
        rw [floatXf_eq hw ht, if_pos hlt]
      have hx1 : floatXf (8 * n) t ^^^ 2 ^ (8 * n - 1) = t := by
        rw [hxf, xor_two_pow_of_ge (by omega) (by omega)]
        omega
      rw [hx1]
      unfold sarMSB
      rw [if_pos hlt, Nat.zero_or, hxf, xor_two_pow_of_ge (by omega) (by omega)]
      simp
    · have hxf : floatXf (8 * n) t = 2 ^ (8 * n) - 1 - t := by
        rw [floatXf_eq hw ht, if_neg hlt]
      have hxlt : floatXf (8 * n) t < 2 ^ (8 * n - 1) := by omega
      have hx1 : floatXf (8 * n) t ^^^ 2 ^ (8 * n - 1)
          = floatXf (8 * n) t + 2 ^ (8 * n - 1) := xor_two_pow_of_lt hxlt
      rw [hx1]
      unfold sarMSB
      rw [if_neg (by omega), lor_ones hw, xor_two_pow_sub_one (by omega)]
      simp
      omega
  · rw [if_neg hbig,
      show toBytesEnd p n (ordCond p (notBits (8 * n) t) t) = serialize_uint p n t from rfl,
      deserialize_serialize_uint p n t rest ht]
    simp only [Except.map, if_neg hbig]

/-! ### Order-preservation lemmas -/

theorem serialize_uint_ascBig (n v : Nat) : serialize_uint ascBig n v = beBytes n v := rfl

theorem serialize_uint_descBig (n v : Nat) :
    serialize_uint descBig n v = beBytes n (notBits (8 * n) v) := rfl

theorem lexLt_serialize_uint_ascBig (n a b : Nat)
    (ha : a < 2 ^ (8 * n)) (hb : b < 2 ^ (8 * n)) :
    lexLtB (serialize_uint ascBig n a) (serialize_uint ascBig n b) = decide (a < b) := by
  rw [serialize_uint_ascBig, serialize_uint_ascBig,
    lexLtB_beBytes n a b (by rwa [← pow256]) (by rwa [← pow256])]

/-- The min-value-complement transform `(v ^ iN::MIN) as uN`, as the serializer
applies it, equals `v + 2^(w-1)` reinterpreted as an unsigned value. -/
theorem sint_transform_eq {w : Nat} (hw : 1 ≤ w) {v : Int}
    (hlo : -(2 ^ (w - 1)) ≤ v) (hhi : v < 2 ^ (w - 1)) :
    toBits w v ^^^ 2 ^ (w - 1) = (v + 2 ^ (w - 1)).toNat := by
  have hb := toBits_eq hlo hhi hw
  have hsplit : (2 : ℤ) ^ w = 2 ^ (w - 1) * 2 := by
    rw [← pow_succ]
    congr 1
    omega
  have hc : ((2 : Nat) ^ (w - 1) : ℤ) = (2 : ℤ) ^ (w - 1) := by push_cast; ring
  have hns := two_pow_split hw
  rcases le_or_lt 0 v with h0 | h0
  · rw [if_pos h0] at hb
    have hlt : toBits w v < 2 ^ (w - 1) := by omega
    rw [xor_two_pow_of_lt hlt]
    omega
  · rw [if_neg (by omega)] at hb
    have hge : 2 ^ (w - 1) ≤ toBits w v := by omega
    have hlt2 : toBits w v < 2 ^ (w - 1) + 2 ^ (w - 1) := by omega
    rw [xor_two_pow_of_ge hge hlt2]
    omega

/-! ### Descending order inverts every byte -/

theorem toBytesEnd_congr {p q : EncodingParams} (he : p.endianness = q.endianness)
    (hn : p.nativeLittle = q.nativeLittle) (n v : Nat) :
    toBytesEnd p n v = toBytesEnd q n v := by
  unfold toBytesEnd
  rw [he, hn]

theorem toBytesEnd_notBits (p : EncodingParams) {n v : Nat} (h : v < 2 ^ (8 * n)) :
    toBytesEnd p n (notBits (8 * n) v) = (toBytesEnd p n v).map invByte := by
  have h1 : notBits (8 * n) v = 256 ^ n - 1 - v := by
    unfold notBits
    rw [pow256]
  rw [h1, toBytesEnd_not p (by rwa [← pow256])]

theorem serialize_uint_desc (e : Endianness) (nl : Bool) (n v : Nat) (h : v < 2 ^ (8 * n)) :
    serialize_uint ⟨e, .Descending, nl⟩ n v
      = (serialize_uint ⟨e, .Ascending, nl⟩ n v).map invByte := by
  unfold serialize_uint
  simp only [ordCond]
  rw [toBytesEnd_congr (p := ⟨e, .Descending, nl⟩) (q := ⟨e, .Ascending, nl⟩) rfl rfl,
    toBytesEnd_notBits _ h]

theorem serialize_sint_desc (e : Endianness) (nl : Bool) (n : Nat) (v : Int) (hn : 1 ≤ n) :
    serialize_sint ⟨e, .Descending, nl⟩ n v
      = (serialize_sint ⟨e, .Ascending, nl⟩ n v).map invByte := by
  unfold serialize_sint
  exact serialize_uint_desc e nl n _
    (Nat.xor_lt_two_pow (toBits_lt _ _) (Nat.pow_lt_pow_right (by omega) (by omega)))

theorem serialize_float_desc (e : Endianness) (nl : Bool) (n t : Nat)
    (hn : 1 ≤ n) (ht : t < 2 ^ (8 * n)) :
    serialize_float ⟨e, .Descending, nl⟩ n t
      = (serialize_float ⟨e, .Ascending, nl⟩ n t).map invByte := by
  unfold serialize_float
  simp only [ordCond]
  have hov : (if (⟨e, .Descending, nl⟩ : EncodingParams).endianness = Endianness.Big then
        floatXf (8 * n) t else t)
      = (if (⟨e, .Ascending, nl⟩ : EncodingParams).endianness = Endianness.Big then
        floatXf (8 * n) t else t) := rfl
  rw [hov]
  set ov := if (⟨e, .Ascending, nl⟩ : EncodingParams).endianness = Endianness.Big then
    floatXf (8 * n) t else t with hov2
  have hovlt : ov < 2 ^ (8 * n) := by
    rw [hov2]
    split
    · exact floatXf_lt (by omega) ht
    · exact ht
  rw [toBytesEnd_congr (p := ⟨e, .Descending, nl⟩) (q := ⟨e, .Ascending, nl⟩) rfl rfl,
    toBytesEnd_notBits _ hovlt]

theorem serialize_bool_desc (e : Endianness) (nl : Bool) (b : Bool) :
    serialize_bool ⟨e, .Descending, nl⟩ b
      = (serialize_bool ⟨e, .Ascending, nl⟩ b).map invByte := by
  unfold serialize_bool
  exact serialize_uint_desc e nl 1 _ (by cases b <;> norm_num)

theorem serialize_char_desc (e : Endianness) (nl : Bool) (c : Nat) (hc : c < 2 ^ (8 * 4)) :
    serialize_char ⟨e, .Descending, nl⟩ c
      = (serialize_char ⟨e, .Ascending, nl⟩ c).map invByte := by
  unfold serialize_char
  exact serialize_uint_desc e nl 4 c hc

/-! ### Lengths of model components -/

theorem write_bytes_length (p : EncodingParams) (v : List Nat) :
    (write_bytes p v).length = v.length := by
  unfold write_bytes
  rcases p.order <;> simp

theorem varintEnc_length (v : Nat) : (varintEnc v).length = varintSize v := by
  induction v using Nat.strong_induction_on with
  | _ v ih =>
    rw [varintEnc, varintSize]
    split
    · simp
    · rename_i h
      simp [ih (v / 128) (Nat.div_lt_self (by omega) (by omega))]
      omega

theorem serialize_sint_length (p : EncodingParams) (n : Nat) (v : Int) :
    (serialize_sint p n v).length = n := serialize_uint_length p n _

theorem serialize_float_length (p : EncodingParams) (n t : Nat) :
    (serialize_float p n t).length = n := toBytesEnd_length p n _

theorem serialize_bool_length (p : EncodingParams) (b : Bool) :
    (serialize_bool p b).length = 1 := serialize_uint_length p 1 _

theorem serialize_char_length (p : EncodingParams) (c : Nat) :
    (serialize_char p c).length = 4 := serialize_uint_length p 4 _

mutual

theorem serStep_length (p : EncodingParams) (v : Value) (st : List Nat × List Nat) :
    ((serStep p v st).1).length + ((serStep p v st).2).length
      = st.1.length + st.2.length + calcSize v := by
  cases v with
  | uintV n w =>
    simp [serStep, calcSize, serialize_uint_length]
    omega
  | sintV n w =>
    simp [serStep, calcSize, serialize_sint_length]
    omega
  | boolV b =>
    simp [serStep, calcSize, serialize_bool_length]
    omega
  | charV c =>
    simp [serStep, calcSize, serialize_char_length]
    omega
  | floatV n t =>
    simp [serStep, calcSize, serialize_float_length]
    omega
  | strV c =>
    simp [serStep, calcSize, write_bytes_length, varintEnc_length]
    omega
  | bytesV c =>
    simp [serStep, calcSize, write_bytes_length, varintEnc_length]
    omega
  | optV o =>
    cases o with
    | none =>
      simp [serStep, calcSize, serialize_uint_length]
      omega
    | some w =>
      have ih := serStep_length p w (st.1 ++ serialize_uint p 1 1, st.2)
      simp [serStep, calcSize, serialize_uint_length] at ih ⊢
      omega
  | seqV es =>
    have ih := serList_length p es (st.1, write_bytes p (varintEnc es.length) ++ st.2)
    simp [serStep, calcSize, write_bytes_length, varintEnc_length] at ih ⊢
    omega
  | tupleV fs =>
    have ih := serList_length p fs st
    simp [serStep, calcSize] at ih ⊢
    omega
  | enumV tag pl =>
    have ih := serStep_length p pl (st.1 ++ write_bytes p (varintEnc tag), st.2)
    simp [serStep, calcSize, write_bytes_length, varintEnc_length] at ih ⊢
    omega

theorem serList_length (p : EncodingParams) (l : List Value) (st : List Nat × List Nat) :
    ((serStep.serList p l st).1).length + ((serStep.serList p l st).2).length
      = st.1.length + st.2.length + calcSize.calcList l := by
  cases l with
  | nil => simp [serStep.serList, calcSize.calcList]
  | cons v vs =>
    have ih1 := serStep_length p v st
    have ih2 := serList_length p vs (serStep p v st)
    simp [serStep.serList, calcSize.calcList] at ih2 ⊢
    omega

end

theorem fromBytesEnd_single (p : EncodingParams) (b : Nat) : fromBytesEnd p [b] = b := by
  have hle : fromLe [b] = b := by simp [fromLe]
  have hbe : fromBe [b] = b := by simp [fromBe]
  unfold fromBytesEnd
  cases p.endianness <;> simp [hle, hbe]

theorem invByte_ne (b : Nat) : invByte b ≠ b := by
  unfold invByte
  omega

theorem lexGt_serialize_uint_descBig (n a b : Nat)
    (ha : a < 2 ^ (8 * n)) (hb : b < 2 ^ (8 * n)) (hab : a < b) :
    lexLtB (serialize_uint descBig n b) (serialize_uint descBig n a) = true := by
  rw [serialize_uint_descBig, serialize_uint_descBig,
    lexLtB_beBytes n _ _ (by rw [← pow256]; exact notBits_lt) (by rw [← pow256]; exact notBits_lt)]
  simp only [decide_eq_true_eq]
  unfold notBits
  omega

/-! ### Rational semantics of float bit patterns (for the ordering claim) -/

theorem qpow2_cast (k : Nat) : ((2 ^ k : Nat) : ℚ) = (2 : ℚ) ^ (k : ℤ) := by
  push_cast
  rw [zpow_natCast]

theorem zpow2_pos (z : ℤ) : (0 : ℚ) < 2 ^ z := zpow_pos (by norm_num) z

theorem zpow2_mono {y z : ℤ} (h : y ≤ z) : (2 : ℚ) ^ y ≤ 2 ^ z :=
  zpow_le_zpow_right₀ (by norm_num) h

theorem zpow2_add (y z : ℤ) : (2 : ℚ) ^ (y + z) = 2 ^ y * 2 ^ z :=
  zpow_add₀ (by norm_num) y z

theorem expf_eq_mf (F : FloatFmt) (u : Nat) :
    F.expf u = u % 2 ^ (F.ebits + F.mbits) / 2 ^ F.mbits := by
  have hsp : (2 : Nat) ^ (F.ebits + F.mbits) = 2 ^ F.mbits * 2 ^ F.ebits := by
    rw [← pow_add, Nat.add_comm]
  rw [hsp, Nat.mod_mul_right_div_self]
  rfl

theorem mant_eq_mf (F : FloatFmt) (u : Nat) :
    F.mant u = u % 2 ^ (F.ebits + F.mbits) % 2 ^ F.mbits := by
  unfold FloatFmt.mant
  rw [Nat.mod_mod_of_dvd _ (pow_dvd_pow 2 (by omega))]

theorem mf_decomp (F : FloatFmt) (u : Nat) :
    u % 2 ^ (F.ebits + F.mbits) = F.expf u * 2 ^ F.mbits + F.mant u := by
  rw [expf_eq_mf, mant_eq_mf]
  exact (Nat.div_add_mod' _ _).symm

theorem expf_lt (F : FloatFmt) (u : Nat) : F.expf u < 2 ^ F.ebits :=
  Nat.mod_lt _ (by positivity)

theorem mant_lt (F : FloatFmt) (u : Nat) : F.mant u < 2 ^ F.mbits :=
  Nat.mod_lt _ (by positivity)

theorem bias_nonneg (F : FloatFmt) : 0 ≤ F.bias := by
  unfold FloatFmt.bias
  have : (0 : ℤ) < 2 ^ (F.ebits - 1) := by positivity
  omega

theorem magE_nonneg (F : FloatFmt) (u : Nat) : 0 ≤ F.magE u := by
  unfold FloatFmt.magE
  split
  · exact (zpow2_pos _).le
  · split
    · exact mul_nonneg (Nat.cast_nonneg _) (zpow2_pos _).le
    · exact mul_nonneg (Nat.cast_nonneg _) (zpow2_pos _).le

theorem magE_lt_hi (F : FloatFmt) (u : Nat) (hfin : F.expf u ≠ 2 ^ F.ebits - 1) :
    F.magE u < (2 : ℚ) ^ ((if F.expf u = 0 then 1 else (F.expf u : ℤ) + 1) - F.bias) := by
  unfold FloatFmt.magE
  rw [if_neg hfin]
  by_cases h0 : F.expf u = 0
  · rw [if_pos h0, if_pos h0]
    have hmlt : ((F.mant u : Nat) : ℚ) < (2 : ℚ) ^ ((F.mbits : Nat) : ℤ) := by
      rw [← qpow2_cast]
      exact_mod_cast mant_lt F u
    calc (F.mant u : ℚ) * 2 ^ (1 - F.bias - F.mbits)
        < 2 ^ ((F.mbits : Nat) : ℤ) * 2 ^ (1 - F.bias - F.mbits) :=
          mul_lt_mul_of_pos_right hmlt (zpow2_pos _)
      _ = 2 ^ (1 - F.bias) := by
          rw [← zpow2_add]
          congr 1
          ring
  · rw [if_neg h0, if_neg h0]
    have hstep : (2 : Nat) ^ F.mbits + F.mant u < 2 ^ (F.mbits + 1) := by
      have h2 := mant_lt F u
      have h3 : (2 : Nat) ^ (F.mbits + 1) = 2 ^ F.mbits + 2 ^ F.mbits := by
        rw [pow_succ]
        ring
      omega
    have hslt : ((2 ^ F.mbits + F.mant u : Nat) : ℚ) < (2 : ℚ) ^ ((F.mbits : ℤ) + 1) := by
      have h1 : ((2 ^ F.mbits + F.mant u : Nat) : ℚ) < ((2 ^ (F.mbits + 1) : Nat) : ℚ) := by
        exact_mod_cast hstep
      rw [qpow2_cast] at h1
      have h2 : ((F.mbits + 1 : Nat) : ℤ) = (F.mbits : ℤ) + 1 := by push_cast; ring
      rwa [h2] at h1
    calc ((2 ^ F.mbits + F.mant u : Nat) : ℚ) * 2 ^ ((F.expf u : ℤ) - F.bias - F.mbits)
        < 2 ^ ((F.mbits : ℤ) + 1) * 2 ^ ((F.expf u : ℤ) - F.bias - F.mbits) :=
          mul_lt_mul_of_pos_right hslt (zpow2_pos _)
      _ = 2 ^ ((F.expf u : ℤ) + 1 - F.bias) := by
          rw [← zpow2_add]
          congr 1
          ring

theorem magE_ge_lo (F : FloatFmt) (u : Nat) (h1 : F.expf u ≠ 0)
    (hfin : F.expf u ≠ 2 ^ F.ebits - 1) :
    (2 : ℚ) ^ ((F.expf u : ℤ) - F.bias) ≤ F.magE u := by
  unfold FloatFmt.magE
  rw [if_neg hfin, if_neg h1]
  have hge : (2 : ℚ) ^ ((F.mbits : Nat) : ℤ) ≤ ((2 ^ F.mbits + F.mant u : Nat) : ℚ) := by
    rw [← qpow2_cast]
    exact_mod_cast Nat.le_add_right _ _
  calc (2 : ℚ) ^ ((F.expf u : ℤ) - F.bias)
      = 2 ^ ((F.mbits : Nat) : ℤ) * 2 ^ ((F.expf u : ℤ) - F.bias - F.mbits) := by
        rw [← zpow2_add]
        congr 1
        ring
    _ ≤ _ := mul_le_mul_of_nonneg_right hge (zpow2_pos _).le

theorem magE_mono (F : FloatFmt) {u v : Nat}
    (h : u % 2 ^ (F.ebits + F.mbits) ≤ v % 2 ^ (F.ebits + F.mbits)) :
    F.magE u ≤ F.magE v := by
  have hdu := mf_decomp F u
  have hdv := mf_decomp F v
  have hmu := mant_lt F u
  have hmv := mant_lt F v
  have heu := expf_lt F u
  have hev := expf_lt F v
  rw [hdu, hdv] at h
  rcases Nat.lt_or_ge (F.expf u) (F.expf v) with hlt | hge
  · have hufin : F.expf u ≠ 2 ^ F.ebits - 1 := by omega
    have hA := magE_lt_hi F u hufin
    by_cases hvinf : F.expf v = 2 ^ F.ebits - 1
    · have hBIG : F.magE v = (2 : ℚ) ^ ((2 : ℤ) ^ F.ebits) := by
        unfold FloatFmt.magE
        rw [if_pos hvinf]
      have hle : ((if F.expf u = 0 then 1 else (F.expf u : ℤ) + 1) - F.bias)
          ≤ (2 : ℤ) ^ F.ebits := by
        have hb0 := bias_nonneg F
        have hcast : ((2 ^ F.ebits : Nat) : ℤ) = (2 : ℤ) ^ F.ebits := by push_cast; ring
        have hc2 : (F.expf u : ℤ) < ((2 ^ F.ebits : Nat) : ℤ) := by exact_mod_cast heu
        split <;> omega
      rw [hBIG]
      exact (lt_of_lt_of_le hA (zpow2_mono hle)).le
    · have hv1 : F.expf v ≠ 0 := by omega
      have hB := magE_ge_lo F v hv1 hvinf
      have hle : ((if F.expf u = 0 then 1 else (F.expf u : ℤ) + 1) - F.bias)
          ≤ ((F.expf v : ℤ) - F.bias) := by
        have h1 : (F.expf u : ℤ) < (F.expf v : ℤ) := by exact_mod_cast hlt
        have h2 : (1 : ℤ) ≤ (F.expf v : ℤ) :=
          by exact_mod_cast Nat.one_le_iff_ne_zero.2 hv1
        split <;> omega
      exact (lt_of_lt_of_le hA (le_trans (zpow2_mono hle) hB)).le
  · have hee : F.expf u = F.expf v := by
      rcases Nat.eq_or_lt_of_le hge with heq | hlt2
      · exact heq.symm
      · exfalso
        have h1 : (F.expf v + 1) * 2 ^ F.mbits ≤ F.expf u * 2 ^ F.mbits :=
          Nat.mul_le_mul_right _ hlt2
        have h2 : (F.expf v + 1) * 2 ^ F.mbits
            = F.expf v * 2 ^ F.mbits + 2 ^ F.mbits := by ring
        omega
    have hmm : F.mant u ≤ F.mant v := by
      rw [hee] at h
      omega
    by_cases hinf : F.expf u = 2 ^ F.ebits - 1
    · unfold FloatFmt.magE
      rw [if_pos hinf, if_pos (by rw [← hee]; exact hinf)]
    · have hinf' : F.expf v ≠ 2 ^ F.ebits - 1 := by rw [← hee]; exact hinf
      by_cases h0 : F.expf u = 0
      · have h0' : F.expf v = 0 := by rw [← hee]; exact h0
        unfold FloatFmt.magE
        rw [if_neg hinf, if_pos h0, if_neg hinf', if_pos h0']
        exact mul_le_mul_of_nonneg_right (by exact_mod_cast hmm) (zpow2_pos _).le
      · have h0' : F.expf v ≠ 0 := by rw [← hee]; exact h0
        unfold FloatFmt.magE
        rw [if_neg hinf, if_neg h0, if_neg hinf', if_neg h0', hee]
        exact mul_le_mul_of_nonneg_right (by exact_mod_cast (by omega : 2 ^ F.mbits + F.mant u ≤ 2 ^ F.mbits + F.mant v)) (zpow2_pos _).le

theorem key_lt_of_valE_lt (F : FloatFmt) {a b : Nat}
    (ha : a < 2 ^ F.w) (hb : b < 2 ^ F.w) (hv : F.valE a < F.valE b) :
    floatXf F.w a < floatXf F.w b := by
  have hw : F.w = F.ebits + F.mbits + 1 := rfl
  have hsp : (2 : Nat) ^ F.w = 2 ^ (F.ebits + F.mbits) + 2 ^ (F.ebits + F.mbits) := by
    rw [hw, pow_succ]
    ring
  have hpos : (0 : Nat) < 2 ^ (F.ebits + F.mbits) := by positivity
  have hxa := floatXf_eq (w := F.w) (t := a) (by omega) ha
  have hxb := floatXf_eq (w := F.w) (t := b) (by omega) hb
  rw [show F.w - 1 = F.ebits + F.mbits by omega] at hxa hxb
  have hsiga : F.sign a = 0 ↔ a < 2 ^ (F.ebits + F.mbits) := Nat.div_eq_zero_iff hpos
  have hsigb : F.sign b = 0 ↔ b < 2 ^ (F.ebits + F.mbits) := Nat.div_eq_zero_iff hpos
  by_cases hA : a < 2 ^ (F.ebits + F.mbits) <;> by_cases hB : b < 2 ^ (F.ebits + F.mbits)
  · -- both signs clear
    unfold FloatFmt.valE at hv
    rw [if_pos (hsiga.2 hA), if_pos (hsigb.2 hB)] at hv
    have hmono : a % 2 ^ (F.ebits + F.mbits) < b % 2 ^ (F.ebits + F.mbits) := by
      by_contra hc
      push_neg at hc
      exact absurd (magE_mono F hc) (not_le.2 hv)
    rw [Nat.mod_eq_of_lt hA, Nat.mod_eq_of_lt hB] at hmono
    rw [hxa, hxb, if_pos hA, if_pos hB]
    omega
  · -- a nonneg, b negative: impossible
    unfold FloatFmt.valE at hv
    rw [if_pos (hsiga.2 hA), if_neg (fun h => hB (hsigb.1 h))] at hv
    have h1 := magE_nonneg F a
    have h2 := magE_nonneg F b
    linarith
  · -- a negative, b nonneg
    rw [hxa, hxb, if_neg hA, if_pos hB]
    omega
  · -- both negative
    unfold FloatFmt.valE at hv
    rw [if_neg (fun h => hA (hsiga.1 h)), if_neg (fun h => hB (hsigb.1 h))] at hv
    have hv' : F.magE b < F.magE a := by linarith
    have hmono : b % 2 ^ (F.ebits + F.mbits) < a % 2 ^ (F.ebits + F.mbits) := by
      by_contra hc
      push_neg at hc
      exact absurd (magE_mono F hc) (not_le.2 hv')
    have hda := Nat.div_add_mod a (2 ^ (F.ebits + F.mbits))
    have hdb := Nat.div_add_mod b (2 ^ (F.ebits + F.mbits))
    have hqa1 : a / 2 ^ (F.ebits + F.mbits) < 2 := by
      rw [Nat.div_lt_iff_lt_mul hpos]
      omega
    have hqa2 : 1 ≤ a / 2 ^ (F.ebits + F.mbits) := by
      rw [Nat.le_div_iff_mul_le hpos]
      omega
    have hqb1 : b / 2 ^ (F.ebits + F.mbits) < 2 := by
      rw [Nat.div_lt_iff_lt_mul hpos]
      omega
    have hqb2 : 1 ≤ b / 2 ^ (F.ebits + F.mbits) := by
      rw [Nat.le_div_iff_mul_le hpos]
      omega
    rw [hxa, hxb, if_neg hA, if_neg hB]
    have hea : a / 2 ^ (F.ebits + F.mbits) = 1 := by omega
    have heb : b / 2 ^ (F.ebits + F.mbits) = 1 := by omega
    rw [hea] at hda
    rw [heb] at hdb
    omega

/-! ## Claims -/

/-- C1: for every primitive type (unsigned and signed integers of any byte
width, bool, char, floats by bit pattern), every encoding-parameter choice
(all endianness values, on both little- and big-endian hosts, and all three
orders), and every representable value — bounds included — deserializing the
serialized bytes yields exactly the value (bit patterns for floats, so NaN
round-trips bitwise), with the remaining input untouched. -/
theorem c1_primitive_roundtrip (p : EncodingParams) :
    (∀ (n v : Nat) (rest : List Nat), v < 2 ^ (8 * n) →
        deserialize_uint p n (serialize_uint p n v ++ rest) = .ok (v, rest)) ∧
    (∀ (n : Nat) (v : Int) (rest : List Nat), 1 ≤ n →
        -(2 ^ (8 * n - 1)) ≤ v → v < 2 ^ (8 * n - 1) →
        deserialize_sint p n (serialize_sint p n v ++ rest) = .ok (v, rest)) ∧
    (∀ (b : Bool) (rest : List Nat),
        deserialize_bool p (serialize_bool p b ++ rest) = .ok (b, rest)) ∧
    (∀ (c : Nat) (rest : List Nat), ¬ ((0xD800 ≤ c ∧ c < 0xE000) ∨ 0x10FFFF < c) →
        deserialize_char p (serialize_char p c ++ rest) = .ok (c, rest)) ∧
    (∀ (n t : Nat) (rest : List Nat), 1 ≤ n → t < 2 ^ (8 * n) →
        deserialize_float p n (serialize_float p n t ++ rest) = .ok (t, rest)) :=
  ⟨fun n v rest h => deserialize_serialize_uint p n v rest h,
   fun n v rest hn hlo hhi => deserialize_serialize_sint p n v rest hn hlo hhi,
   fun b rest => deserialize_serialize_bool p b rest,
   fun c rest hval => deserialize_serialize_char p c rest hval,
   fun n t rest hn ht => deserialize_serialize_float p n t rest hn ht⟩

theorem c1_primitive_roundtrip_witness :
    deserialize_uint ascBig 2 (serialize_uint ascBig 2 65535 ++ [9]) = .ok (65535, [9]) ∧
    deserialize_sint descBig 2 (serialize_sint descBig 2 (-32768) ++ []) = .ok (-32768, []) ∧
    deserialize_bool ⟨.Little, .Unordered, true⟩
      (serialize_bool ⟨.Little, .Unordered, true⟩ true ++ []) = .ok (true, []) ∧
    deserialize_char ⟨.Native, .Descending, false⟩
      (serialize_char ⟨.Native, .Descending, false⟩ 0x10FFFF ++ []) = .ok (0x10FFFF, []) ∧
    deserialize_float ascBig 8
      (serialize_float ascBig 8 0x7FF8000000000000 ++ []) = .ok (0x7FF8000000000000, []) :=
  ⟨(c1_primitive_roundtrip ascBig).1 2 65535 [9] (by norm_num),
   (c1_primitive_roundtrip descBig).2.1 2 (-32768) [] (by norm_num) (by norm_num) (by norm_num),
   (c1_primitive_roundtrip ⟨.Little, .Unordered, true⟩).2.2.1 true [],
   (c1_primitive_roundtrip ⟨.Native, .Descending, false⟩).2.2.2.1 0x10FFFF [] (by norm_num),
   (c1_primitive_roundtrip ascBig).2.2.2.2 8 0x7FF8000000000000 [] (by norm_num) (by norm_num)⟩

/-- C2: under the ascending big-endian configuration, for any byte width,
`a < b` iff the serialized bytes of `a` are lexicographically below those of
`b`, for unsigned and for signed values; the min-value-complement transform,
exactly as the serializer applies it (`(v ^ iN::MIN) as uN`), is strictly
monotone from the signed range onto the unsigned range. -/
theorem c2_integer_order_preservation (n : Nat) (hn : 1 ≤ n) :
    (∀ a b : Nat, a < 2 ^ (8 * n) → b < 2 ^ (8 * n) →
        (a < b ↔ lexLtB (serialize_uint ascBig n a) (serialize_uint ascBig n b) = true)) ∧
    (∀ a b : Int,
        -(2 ^ (8 * n - 1)) ≤ a → a < 2 ^ (8 * n - 1) →
        -(2 ^ (8 * n - 1)) ≤ b → b < 2 ^ (8 * n - 1) →
        (a < b ↔ lexLtB (serialize_sint ascBig n a) (serialize_sint ascBig n b) = true)) ∧
    (∀ a b : Int,
        -(2 ^ (8 * n - 1)) ≤ a → a < 2 ^ (8 * n - 1) →
        -(2 ^ (8 * n - 1)) ≤ b → b < 2 ^ (8 * n - 1) →
        (a < b ↔ toBits (8 * n) a ^^^ 2 ^ (8 * n - 1) < toBits (8 * n) b ^^^ 2 ^ (8 * n - 1))) ∧
    (∀ u : Nat, u < 2 ^ (8 * n) → ∃ v : Int,
        -(2 ^ (8 * n - 1)) ≤ v ∧ v < 2 ^ (8 * n - 1) ∧
        toBits (8 * n) v ^^^ 2 ^ (8 * n - 1) = u) := by
  have hw : 1 ≤ 8 * n := by omega
  have hns := two_pow_split hw
  have hc : ((2 : Nat) ^ (8 * n - 1) : ℤ) = (2 : ℤ) ^ (8 * n - 1) := by push_cast; ring
  refine ⟨?_, ?_, ?_, ?_⟩
  · intro a b ha hb
    rw [lexLt_serialize_uint_ascBig n a b ha hb]
    simp
  · intro a b ha1 ha2 hb1 hb2
    have hxa : toBits (8 * n) a ^^^ 2 ^ (8 * n - 1) < 2 ^ (8 * n) :=
      Nat.xor_lt_two_pow (toBits_lt _ _) (Nat.pow_lt_pow_right (by omega) (by omega))
    have hxb : toBits (8 * n) b ^^^ 2 ^ (8 * n - 1) < 2 ^ (8 * n) :=
      Nat.xor_lt_two_pow (toBits_lt _ _) (Nat.pow_lt_pow_right (by omega) (by omega))
    rw [show serialize_sint ascBig n a
        = serialize_uint ascBig n (toBits (8 * n) a ^^^ 2 ^ (8 * n - 1)) from rfl,
      show serialize_sint ascBig n b
        = serialize_uint ascBig n (toBits (8 * n) b ^^^ 2 ^ (8 * n - 1)) from rfl,
      lexLt_serialize_uint_ascBig n _ _ hxa hxb,
      sint_transform_eq hw ha1 ha2, sint_transform_eq hw hb1 hb2]
    simp only [decide_eq_true_eq]
    omega
  · intro a b ha1 ha2 hb1 hb2
    rw [sint_transform_eq hw ha1 ha2, sint_transform_eq hw hb1 hb2]
    omega
  · intro u hu
    have hnsz : ((2 : Nat) ^ (8 * n) : ℤ) = ((2 : Nat) ^ (8 * n - 1) : ℤ)
        + ((2 : Nat) ^ (8 * n - 1) : ℤ) := by exact_mod_cast hns
    have hb1 : -(2 ^ (8 * n - 1)) ≤ (u : ℤ) - 2 ^ (8 * n - 1) := by omega
    have hb2 : (u : ℤ) - 2 ^ (8 * n - 1) < 2 ^ (8 * n - 1) := by omega
    refine ⟨(u : ℤ) - 2 ^ (8 * n - 1), hb1, hb2, ?_⟩
    rw [sint_transform_eq hw hb1 hb2]
    omega

theorem c2_integer_order_preservation_witness :
    ((5 : Nat) < 7 ↔ lexLtB (serialize_uint ascBig 2 5) (serialize_uint ascBig 2 7) = true) ∧
    ((-3 : Int) < 11 ↔
        lexLtB (serialize_sint ascBig 2 (-3)) (serialize_sint ascBig 2 11) = true) ∧
    ((-3 : Int) < 11 ↔
        toBits 16 (-3) ^^^ 2 ^ 15 < toBits 16 11 ^^^ 2 ^ 15) ∧
    (∃ v : Int, -(2 ^ 15) ≤ v ∧ v < 2 ^ 15 ∧ toBits 16 v ^^^ 2 ^ 15 = 40000) :=
  ⟨(c2_integer_order_preservation 2 (by norm_num)).1 5 7 (by norm_num) (by norm_num),
   (c2_integer_order_preservation 2 (by norm_num)).2.1 (-3) 11
     (by norm_num) (by norm_num) (by norm_num) (by norm_num),
   (c2_integer_order_preservation 2 (by norm_num)).2.2.1 (-3) 11
     (by norm_num) (by norm_num) (by norm_num) (by norm_num),
   (c2_integer_order_preservation 2 (by norm_num)).2.2.2 40000 (by norm_num)⟩

/-- C3: under every endianness (and host byte order), the bytes a primitive
serializer produces with `Order::Descending` are exactly the bytes produced
with `Order::Ascending`, each bitwise inverted; consequently, under the
big-endian descending configuration the lexicographic comparison of encodings
is exactly reversed. -/
theorem c3_descending_inverts_bytes :
    (∀ (e : Endianness) (nl : Bool) (n v : Nat), v < 2 ^ (8 * n) →
        serialize_uint ⟨e, .Descending, nl⟩ n v
          = (serialize_uint ⟨e, .Ascending, nl⟩ n v).map invByte) ∧
    (∀ (e : Endianness) (nl : Bool) (n : Nat) (v : Int), 1 ≤ n →
        serialize_sint ⟨e, .Descending, nl⟩ n v
          = (serialize_sint ⟨e, .Ascending, nl⟩ n v).map invByte) ∧
    (∀ (e : Endianness) (nl : Bool) (n t : Nat), 1 ≤ n → t < 2 ^ (8 * n) →
        serialize_float ⟨e, .Descending, nl⟩ n t
          = (serialize_float ⟨e, .Ascending, nl⟩ n t).map invByte) ∧
    (∀ (e : Endianness) (nl : Bool) (b : Bool),
        serialize_bool ⟨e, .Descending, nl⟩ b
          = (serialize_bool ⟨e, .Ascending, nl⟩ b).map invByte) ∧
    (∀ (e : Endianness) (nl : Bool) (c : Nat), c < 2 ^ (8 * 4) →
        serialize_char ⟨e, .Descending, nl⟩ c
          = (serialize_char ⟨e, .Ascending, nl⟩ c).map invByte) ∧
    (∀ (n a b : Nat), a < 2 ^ (8 * n) → b < 2 ^ (8 * n) → a < b →
        lexLtB (serialize_uint descBig n b) (serialize_uint descBig n a) = true) ∧
    (∀ (n : Nat) (a b : Int), 1 ≤ n →
        -(2 ^ (8 * n - 1)) ≤ a → a < 2 ^ (8 * n - 1) →
        -(2 ^ (8 * n - 1)) ≤ b → b < 2 ^ (8 * n - 1) → a < b →
        lexLtB (serialize_sint descBig n b) (serialize_sint descBig n a) = true) := by
  refine ⟨serialize_uint_desc, serialize_sint_desc, serialize_float_desc,
    serialize_bool_desc, serialize_char_desc, lexGt_serialize_uint_descBig, ?_⟩
  intro n a b hn ha1 ha2 hb1 hb2 hab
  have hw : 1 ≤ 8 * n := by omega
  have hxa : toBits (8 * n) a ^^^ 2 ^ (8 * n - 1) < 2 ^ (8 * n) :=
    Nat.xor_lt_two_pow (toBits_lt _ _) (Nat.pow_lt_pow_right (by omega) (by omega))
  have hxb : toBits (8 * n) b ^^^ 2 ^ (8 * n - 1) < 2 ^ (8 * n) :=
    Nat.xor_lt_two_pow (toBits_lt _ _) (Nat.pow_lt_pow_right (by omega) (by omega))
  have hmono : toBits (8 * n) a ^^^ 2 ^ (8 * n - 1) < toBits (8 * n) b ^^^ 2 ^ (8 * n - 1) := by
    rw [sint_transform_eq hw ha1 ha2, sint_transform_eq hw hb1 hb2]
    omega
  exact lexGt_serialize_uint_descBig n _ _ hxa hxb hmono

theorem c3_descending_inverts_bytes_witness :
    serialize_uint ⟨.Little, .Descending, true⟩ 2 513
        = (serialize_uint ⟨.Little, .Ascending, true⟩ 2 513).map invByte ∧
    serialize_sint ⟨.Big, .Descending, true⟩ 2 (-2)
        = (serialize_sint ⟨.Big, .Ascending, true⟩ 2 (-2)).map invByte ∧
    serialize_float ⟨.Big, .Descending, false⟩ 4 0x3F800000
        = (serialize_float ⟨.Big, .Ascending, false⟩ 4 0x3F800000).map invByte ∧
    serialize_bool ⟨.Native, .Descending, false⟩ true
        = (serialize_bool ⟨.Native, .Ascending, false⟩ true).map invByte ∧
    serialize_char ⟨.Big, .Descending, true⟩ 97
        = (serialize_char ⟨.Big, .Ascending, true⟩ 97).map invByte ∧
    lexLtB (serialize_uint descBig 2 7) (serialize_uint descBig 2 5) = true ∧
    lexLtB (serialize_sint descBig 2 11) (serialize_sint descBig 2 (-3)) = true :=
  ⟨c3_descending_inverts_bytes.1 .Little true 2 513 (by norm_num),
   c3_descending_inverts_bytes.2.1 .Big true 2 (-2) (by norm_num),
   c3_descending_inverts_bytes.2.2.1 .Big false 4 0x3F800000 (by norm_num) (by norm_num),
   c3_descending_inverts_bytes.2.2.2.1 .Native false true,
   c3_descending_inverts_bytes.2.2.2.2.1 .Big true 97 (by norm_num),
   c3_descending_inverts_bytes.2.2.2.2.2.1 2 5 7 (by norm_num) (by norm_num) (by norm_num),
   c3_descending_inverts_bytes.2.2.2.2.2.2 2 (-3) 11 (by norm_num) (by norm_num)
     (by norm_num) (by norm_num) (by norm_num) (by norm_num)⟩

/-- C4: the size calculator's result equals exactly the number of bytes the
structured serializer writes (head plus tail), for every value and every
configuration; consequently `ser_to_vec_ordered` allocates exactly
`calc_size` bytes, its completeness check succeeds, and the returned vector
has exactly `calc_size` bytes. -/
theorem c4_calc_size_exact :
    (∀ (p : EncodingParams) (v : Value),
        ((serStep p v ([], [])).1).length + ((serStep p v ([], [])).2).length = calcSize v) ∧
    (∀ (v : Value) (order : Order), ∃ bytes,
        serToVecOrdered v order = .ok bytes ∧ bytes.length = calcSize v) := by
  have hmain : ∀ (p : EncodingParams) (v : Value),
      ((serStep p v ([], [])).1).length + ((serStep p v ([], [])).2).length = calcSize v := by
    intro p v
    have := serStep_length p v ([], [])
    simpa using this
  refine ⟨hmain, ?_⟩
  intro v order
  unfold serToVecOrdered
  rw [if_pos (hmain ascBig v)]
  refine ⟨_, rfl, ?_⟩
  split
  · unfold invert_buffer
    rw [List.length_map, List.length_append]
    exact hmain ascBig v
  · rw [List.length_append]
    exact hmain ascBig v

/-- C5: for `f32` and `f64` under the big-endian ascending configuration,
serialization writes the big-endian bytes of the transform
`t ^ ((t >> (width-1)) | sign_bit_mask)` applied to the float's bit pattern
(`floatXf`), and for every pair of non-NaN patterns whose IEEE-754 numeric
values (infinities included, via the order-faithful extended rational
semantics `valE`) satisfy `a < b`, the serialized bytes of `a` are
lexicographically below those of `b`. -/
theorem c5_float_order_preservation :
    (∀ n t : Nat, serialize_float ascBig n t = beBytes n (floatXf (8 * n) t)) ∧
    (∀ a b : Nat, a < 2 ^ 32 → b < 2 ^ 32 →
        ¬ f32fmt.isNaN a → ¬ f32fmt.isNaN b → f32fmt.valE a < f32fmt.valE b →
        lexLtB (serialize_float ascBig 4 a) (serialize_float ascBig 4 b) = true) ∧
    (∀ a b : Nat, a < 2 ^ 64 → b < 2 ^ 64 →
        ¬ f64fmt.isNaN a → ¬ f64fmt.isNaN b → f64fmt.valE a < f64fmt.valE b →
        lexLtB (serialize_float ascBig 8 a) (serialize_float ascBig 8 b) = true) := by
  have hgen : ∀ (F : FloatFmt) (n : Nat), F.w = 8 * n →
      ∀ a b : Nat, a < 2 ^ F.w → b < 2 ^ F.w → F.valE a < F.valE b →
      lexLtB (serialize_float ascBig n a) (serialize_float ascBig n b) = true := by
    intro F n hFw a b ha hb hv
    have hw1 : 1 ≤ F.w := by
      have : F.w = F.ebits + F.mbits + 1 := rfl
      omega
    have hkey := key_lt_of_valE_lt F ha hb hv
    rw [show serialize_float ascBig n a = beBytes n (floatXf (8 * n) a) from rfl,
      show serialize_float ascBig n b = beBytes n (floatXf (8 * n) b) from rfl,
      ← hFw,
      lexLtB_beBytes n _ _ (by rw [← pow256, ← hFw]; exact floatXf_lt hw1 ha)
        (by rw [← pow256, ← hFw]; exact floatXf_lt hw1 hb)]
    simpa using hkey
  refine ⟨fun n t => rfl, ?_, ?_⟩
  · intro a b ha hb _ _ hv
    exact hgen f32fmt 4 rfl a b ha hb hv
  · intro a b ha hb _ _ hv
    exact hgen f64fmt 8 rfl a b ha hb hv

theorem c5_float_order_preservation_witness :
    serialize_float ascBig 4 0x3F800000 = beBytes 4 (floatXf 32 0x3F800000) ∧
    lexLtB (serialize_float ascBig 4 0xBFC00000) (serialize_float ascBig 4 0x3F800000)
        = true ∧
    lexLtB (serialize_float ascBig 8 0xFFF0000000000000)
        (serialize_float ascBig 8 0x7FF0000000000000) = true :=
  ⟨c5_float_order_preservation.1 4 0x3F800000,
   c5_float_order_preservation.2.1 0xBFC00000 0x3F800000 (by norm_num) (by norm_num)
     (by norm_num [FloatFmt.isNaN, FloatFmt.expf, FloatFmt.mant, f32fmt])
     (by norm_num [FloatFmt.isNaN, FloatFmt.expf, FloatFmt.mant, f32fmt])
     (by norm_num [FloatFmt.valE, FloatFmt.magE, FloatFmt.expf, FloatFmt.mant,
       FloatFmt.sign, FloatFmt.bias, f32fmt]),
   c5_float_order_preservation.2.2 0xFFF0000000000000 0x7FF0000000000000 (by norm_num)
     (by norm_num) (by norm_num [FloatFmt.isNaN, FloatFmt.expf, FloatFmt.mant, f64fmt])
     (by norm_num [FloatFmt.isNaN, FloatFmt.expf, FloatFmt.mant, f64fmt])
     (by norm_num [FloatFmt.valE, FloatFmt.magE, FloatFmt.expf, FloatFmt.mant,
       FloatFmt.sign, FloatFmt.bias, f64fmt])⟩

/-- C6: serializing the tuple `(u16 = 1, string = "abc")` with ascending
order produces exactly `00 01 61 62 63 07` (big-endian `u16`, string
content, trailing varint length byte), and with descending order exactly
those six bytes each bitwise inverted, `FF FE 9E 9D 9C F8`. -/
theorem c6_scenario_bytes :
    serToVecOrdered (.tupleV [.uintV 2 1, .strV [0x61, 0x62, 0x63]]) .Ascending
        = .ok [0x00, 0x01, 0x61, 0x62, 0x63, 0x07] ∧
    serToVecOrdered (.tupleV [.uintV 2 1, .strV [0x61, 0x62, 0x63]]) .Descending
        = .ok [0xFF, 0xFE, 0x9E, 0x9D, 0x9C, 0xF8] := by
  constructor <;>
    simp [serToVecOrdered, serStep, serStep.serList, calcSize, calcSize.calcList,
      varintEnc, varintSize, serialize_uint, write_bytes, toBytesEnd, beBytes,
      ordCond, notBits, ascBig, invert_buffer, invByte]

/-- C7: `deserialize_char` fails with `InvalidUtf8Encoding` exactly when the
value decoded through the `u32` path is not a Unicode scalar value (a
surrogate in `0xD800..=0xDFFF` or above `0x10FFFF`); on every valid scalar it
returns that scalar. -/
theorem c7_char_invalid_iff (p : EncodingParams) (u : Nat) (rest : List Nat)
    (hu : u < 2 ^ (8 * 4)) :
    (deserialize_char p (serialize_uint p 4 u ++ rest) = .error .InvalidUtf8Encoding
        ↔ ((0xD800 ≤ u ∧ u < 0xE000) ∨ 0x10FFFF < u)) ∧
    (¬ ((0xD800 ≤ u ∧ u < 0xE000) ∨ 0x10FFFF < u) →
        deserialize_char p (serialize_uint p 4 u ++ rest) = .ok (u, rest)) := by
  unfold deserialize_char
  rw [deserialize_serialize_uint p 4 u rest hu]
  by_cases hval : (0xD800 ≤ u ∧ u < 0xE000) ∨ 0x10FFFF < u
  · simp [bind, Except.bind, char_from_u32, hval]
  · simp [bind, Except.bind, char_from_u32, hval]

theorem c7_char_invalid_iff_witness :
    ((deserialize_char ascBig (serialize_uint ascBig 4 0xD800 ++ [])
        = .error .InvalidUtf8Encoding
        ↔ ((0xD800 ≤ 0xD800 ∧ 0xD800 < 0xE000) ∨ 0x10FFFF < 0xD800)) ∧
     ((0xD800 ≤ 0xD800 ∧ (0xD800 : Nat) < 0xE000) ∨ 0x10FFFF < (0xD800 : Nat))) ∧
    (deserialize_char ascBig (serialize_uint ascBig 4 0x41 ++ []) = .ok (0x41, [])) :=
  ⟨⟨(c7_char_invalid_iff ascBig 0xD800 [] (by norm_num)).1, by norm_num⟩,
   (c7_char_invalid_iff ascBig 0x41 [] (by norm_num)).2 (by norm_num)⟩

/-- C8: `write_bytes` writes exactly `len(v)` bytes for every byte slice and
configuration: each byte inverted under `Order::Descending`, the bytes
unchanged under `Ascending` or `Unordered`. -/
theorem c8_write_bytes_exact (p : EncodingParams) (v : List Nat) :
    (write_bytes p v).length = v.length ∧
    (p.order = .Descending → write_bytes p v = v.map invByte) ∧
    (p.order ≠ .Descending → write_bytes p v = v) := by
  unfold write_bytes
  rcases ho : p.order <;> simp [ho]

theorem c8_write_bytes_exact_witness :
    (write_bytes descBig [0, 200]).length = 2 ∧
    write_bytes descBig [0, 200] = [0, 200].map invByte ∧
    write_bytes ascBig [0, 200] = [0, 200] :=
  ⟨(c8_write_bytes_exact descBig [0, 200]).1,
   (c8_write_bytes_exact descBig [0, 200]).2.1 rfl,
   (c8_write_bytes_exact ascBig [0, 200]).2.2 (by decide)⟩

/-- C9: `deserialize_bool` never fails on a one-byte input: it returns `true`
for every nonzero decoded byte (not only `1`) and `false` for a zero decoded
byte, where the decoded byte is the input byte, inverted first under
`Order::Descending`. -/
theorem c9_bool_accepts_all_bytes (p : EncodingParams) (b : Nat) (hb : b < 256) :
    deserialize_bool p [b] = .ok ((ordCond p (notBits 8 b) b != 0), []) := by
  unfold deserialize_bool deserialize_uint
  rw [if_pos (by simp)]
  simp only [List.take, List.drop, Except.map, fromBytesEnd_single]

theorem c9_bool_accepts_all_bytes_witness :
    deserialize_bool ascBig [7] = .ok (true, []) ∧
    deserialize_bool descBig [255] = .ok (false, []) ∧
    deserialize_bool descBig [3] = .ok (true, []) :=
  ⟨(c9_bool_accepts_all_bytes ascBig 7 (by norm_num)).trans (by rfl),
   (c9_bool_accepts_all_bytes descBig 255 (by norm_num)).trans (by rfl),
   (c9_bool_accepts_all_bytes descBig 3 (by norm_num)).trans (by rfl)⟩

/-- C10: with `Order::Descending`, `ser_to_buf_ordered` bitwise-inverts the
caller's entire supplied buffer, not only the `len` serialized bytes it
reports: on any sufficiently large buffer the descending result is the
bytewise inversion of the ascending result over the whole buffer, and every
byte at an index at or past `len` is inverted — never left unchanged. -/
theorem c10_ser_to_buf_descending_inverts_whole_buffer (v : Value) (buf : List Nat)
    (hroom : (serHead v).length + (serTail v).length ≤ buf.length) :
    ∃ len fin,
      ser_to_buf_ordered v buf .Ascending = .ok (len, fin) ∧
      ser_to_buf_ordered v buf .Descending = .ok (len, invert_buffer fin) ∧
      fin.length = buf.length ∧
      ∀ i, len ≤ i → i < fin.length →
        (invert_buffer fin).getD i 0 = invByte (fin.getD i 0) ∧
        (invert_buffer fin).getD i 0 ≠ fin.getD i 0 := by
  unfold ser_to_buf_ordered
  rw [if_pos hroom, if_pos hroom]
  refine ⟨(serHead v).length + (serTail v).length, finalizedBuf v buf, rfl, rfl, ?_, ?_⟩
  · simp only [finalizedBuf, List.length_append, List.length_drop, List.length_take]
    omega
  · intro i hi hlen
    have h1 : ∀ l : List Nat, ∀ j, j < l.length →
        (invert_buffer l).getD j 0 = invByte (l.getD j 0) := by
      intro l j hj
      unfold invert_buffer
      rw [List.getD_eq_getElem?_getD, List.getD_eq_getElem?_getD, List.getElem?_map,
        List.getElem?_eq_getElem hj]
      simp
    refine ⟨h1 _ i hlen, ?_⟩
    rw [h1 _ i hlen]
    exact invByte_ne _

theorem c10_ser_to_buf_witness :
    ∃ len fin,
      ser_to_buf_ordered (.tupleV [.uintV 2 1, .strV [0x61, 0x62, 0x63]])
        [0, 0, 0, 0, 0, 0, 0, 0] .Ascending = .ok (len, fin) ∧
      ser_to_buf_ordered (.tupleV [.uintV 2 1, .strV [0x61, 0x62, 0x63]])
        [0, 0, 0, 0, 0, 0, 0, 0] .Descending = .ok (len, invert_buffer fin) ∧
      fin.length = 8 ∧
      ∀ i, len ≤ i → i < fin.length →
        (invert_buffer fin).getD i 0 = invByte (fin.getD i 0) ∧
        (invert_buffer fin).getD i 0 ≠ fin.getD i 0 := by
  have h := c10_ser_to_buf_descending_inverts_whole_buffer
    (.tupleV [.uintV 2 1, .strV [0x61, 0x62, 0x63]]) [0, 0, 0, 0, 0, 0, 0, 0]
    (by simp [serHead, serTail, serStep, serStep.serList, varintEnc, serialize_uint,
      write_bytes, toBytesEnd, beBytes, ordCond, notBits, ascBig])
  simpa using h

end Ordcode
